import Mathlib

/-!
# Verification of the api-extractor entity-collection core

Shallow embedding of the collector/analyzer/generator classes of the
`web-build-tools` api-extractor fork, together with proofs about them:

* `CollectorEntity` — `src/apps/api-extractor/src/collector/CollectorEntity.ts`
* `collectAllReferencedEntities` / `DtsEmitHelpers.emitImport` —
  `src/apps/api-extractor/src/generators/utils.ts`
* `AstImport` / `AstSubPathImport` —
  `src/apps/api-extractor/src/analyzer/AstSubPathImport.ts`

TypeScript `Map`s are embedded as association lists in insertion order,
JavaScript `Set`s as duplicate-free lists in insertion order, thrown
exceptions as `Except`, and `undefined`-able values as `Option`.
-/

/-! ## The AstEntity variants (closed set, per `AstEntity.ts`) -/

/-- The variant of an `AstEntity`, as distinguished by `instanceof` checks in
the source (`AstSymbol`, `AstImport`, `AstNamespaceImport`, `AstSubPathImport`). -/
inductive AstEntityVariant where
  | astSymbol
  | astImport
  | astNamespaceImport
  | astSubPathImport
deriving DecidableEq, Repr

/-! ## JS `Map<string, {isTypeOnlyExport}>` helpers -/

/-- JS `Map.has`, for a map embedded as an association list in insertion order. -/
def mapHas (m : List (String × Bool)) (k : String) : Bool :=
  m.any (fun e => e.1 == k)

/-- JS `Map.get` (returning `undefined` as `none`). -/
def mapGet (m : List (String × Bool)) (k : String) : Option Bool :=
  (m.find? (fun e => e.1 == k)).map (fun e => e.2)

/-- Modelled from the spec: `Sort.sortMapKeys` of the repository's
`@rushstack/node-core-library` package (its source is not under `src/`).
It reorders the entries of a `Map` so that the keys are in sorted order
(default comparer), which is what the `_exportNamesSorted` caching flag in
`CollectorEntity.ts` records. -/
def sortMapKeys (m : List (String × Bool)) : List (String × Bool) :=
  List.insertionSort (fun a b => a.1 ≤ b.1) m

/-! ## CollectorEntity (`collector/CollectorEntity.ts`)

The class is embedded as an inductive so that the `_localExportNamesByParent`
map (parent `CollectorEntity` → local export names) can be carried
structurally; the parent graph is a tree by construction, which is what makes
the recursive `consumable` getter well defined.  The `_sortKey` cache is
omitted (none of the embedded operations read it). -/

inductive CollectorEntity where
  | mk
      (astEntity : AstEntityVariant)
      (exportNamesMap : List (String × Bool))
      (exportNamesSortedFlag : Bool)
      (singleExportNameField : Option String)
      (localExportNamesByParent : List (CollectorEntity × List (String × Bool)))
      (nameForEmit : Option String)

/-- Field `astEntity`. -/
def CollectorEntity.astEntity : CollectorEntity → AstEntityVariant
  | .mk a _ _ _ _ _ => a

/-- Private field `_exportNames` (insertion order). -/
def CollectorEntity.exportNamesMap : CollectorEntity → List (String × Bool)
  | .mk _ m _ _ _ _ => m

/-- Private field `_exportNamesSorted`. -/
def CollectorEntity.exportNamesSortedFlag : CollectorEntity → Bool
  | .mk _ _ b _ _ _ => b

/-- Private field `_singleExportName`. -/
def CollectorEntity.singleExportNameField : CollectorEntity → Option String
  | .mk _ _ _ s _ _ => s

/-- Private field `_localExportNamesByParent`. -/
def CollectorEntity.localExportNamesByParent :
    CollectorEntity → List (CollectorEntity × List (String × Bool))
  | .mk _ _ _ _ p _ => p

/-- Private field `_nameForEmit` (also the `nameForEmit` getter). -/
def CollectorEntity.nameForEmit : CollectorEntity → Option String
  | .mk _ _ _ _ _ n => n

/-- The `CollectorEntity` constructor: only `astEntity` is supplied; the other
fields take their initializer values. -/
def CollectorEntity.new (astEntity : AstEntityVariant) : CollectorEntity :=
  .mk astEntity [] false none [] none

/-- The `nameForEmit` setter (it also invalidates the omitted `_sortKey` cache). -/
def CollectorEntity.setNameForEmit (e : CollectorEntity) (value : Option String) :
    CollectorEntity :=
  match e with
  | .mk a m b s p _ => .mk a m b s p value

/-- Getter `exportNames`: sorts the key order on first read (the observable
result of `Sort.sortMapKeys` plus the `_exportNamesSorted` cache). -/
def CollectorEntity.exportNames (e : CollectorEntity) : List (String × Bool) :=
  if e.exportNamesSortedFlag then e.exportNamesMap else sortMapKeys e.exportNamesMap

/-- Getter `singleExportName`. -/
def CollectorEntity.singleExportName (e : CollectorEntity) : Option String :=
  e.singleExportNameField

/-- Method `addExportName(exportName, isTypeOnlyExport)`: a no-op when the name
is already present; otherwise appends the entry (JS `Map.set` on a fresh key),
clears the sorted flag, and recomputes `_singleExportName` from the new size. -/
def CollectorEntity.addExportName (e : CollectorEntity) (exportName : String)
    (isTypeOnlyExport : Bool) : CollectorEntity :=
  if mapHas e.exportNamesMap exportName then e
  else
    let m := e.exportNamesMap ++ [(exportName, isTypeOnlyExport)]
    .mk e.astEntity m false
      (if m.length == 1 then some exportName else none)
      e.localExportNamesByParent e.nameForEmit

/-- Getter `shouldInlineExport`: the wrapped entity must be an `AstSymbol`, the
single export name must exist and differ from `ts.InternalSymbolName.Default`
(the string `"default"`), must not be a type-only export, and `_nameForEmit`
must be unassigned or equal to it. -/
def CollectorEntity.shouldInlineExport (e : CollectorEntity) : Bool :=
  match e.astEntity with
  | .astSymbol =>
    match e.singleExportName with
    | some single =>
      if single == "default" then false
      else if (mapGet e.exportNamesMap single).getD false then false
      else if e.nameForEmit == none || e.nameForEmit == some single then true
      else false
    | none => false
  | _ => false

/-- Getter `exportedFromEntryPoint` (`this.exportNames.size > 0`). -/
def CollectorEntity.exportedFromEntryPoint (e : CollectorEntity) : Bool :=
  decide (0 < e.exportNames.length)

mutual

/-- Getter `consumable`: exported from the top level, or exported (with a
non-empty local export map) from a parent that is itself consumable. -/
def CollectorEntity.consumable : CollectorEntity → Bool
  | .mk a m b s parents n =>
    (CollectorEntity.mk a m b s parents n).exportedFromEntryPoint ||
      consumableAnyParent parents

/-- The `for ([parent, localExportNames] of this._localExportNamesByParent)`
loop inside the `consumable` getter, with its early `return true`. -/
def consumableAnyParent : List (CollectorEntity × List (String × Bool)) → Bool
  | [] => false
  | (parent, localExportNames) :: rest =>
    (decide (0 < localExportNames.length) && CollectorEntity.consumable parent) ||
      consumableAnyParent rest

end

/-- Replays a call sequence of `addExportName` (name, isTypeOnlyExport). -/
def applyAddExportNames (adds : List (String × Bool)) (e : CollectorEntity) :
    CollectorEntity :=
  adds.foldl (fun acc p => acc.addExportName p.1 p.2) e

/-- First-occurrence accumulation of a call sequence: the contents the
`_exportNames` map ends up with. -/
def addOccurrence (m : List (String × Bool)) (p : String × Bool) :
    List (String × Bool) :=
  if mapHas m p.1 then m else m ++ [p]

/-- The `_exportNames` map resulting from a call sequence on a fresh entity. -/
def firstOccurrences (adds : List (String × Bool)) : List (String × Bool) :=
  adds.foldl addOccurrence []

/-- The `_singleExportName` value determined by a `_exportNames` map. -/
def singleOf (m : List (String × Bool)) : Option String :=
  match m with
  | [(n, _)] => some n
  | _ => none

/-! ## ReleaseTag (from `@microsoft/api-extractor-model`)

Modelled from the spec: the `ReleaseTag` enumeration and its comparison are
repository code that is not under `src/` (only `generators/utils.ts` consumes
them).  The spec fixes "a total order Public > Beta > Alpha > Internal >
None-is-untrimmed"; `ReleaseTag.compare(a, b)` is negative exactly when `a`
is strictly weaker than `b`. -/

inductive ReleaseTag where
  | none
  | internal
  | alpha
  | beta
  | public
deriving DecidableEq, Repr

/-- Modelled from the spec: the numeric value of each `ReleaseTag` member,
ordered Internal < Alpha < Beta < Public with None below all of them. -/
def ReleaseTag.toNat : ReleaseTag → Nat
  | .none => 0
  | .internal => 1
  | .alpha => 2
  | .beta => 3
  | .public => 4

/-- Modelled from the spec: `ReleaseTag.compare(a, b)`, negative when `a` is
strictly weaker than `b` in the order above. -/
def ReleaseTag.compare (a b : ReleaseTag) : Int :=
  (a.toNat : Int) - (b.toNat : Int)

/-! ## The entity graph walked by `collectAllReferencedEntities`
(`generators/utils.ts`)

`AstEntity` objects are referenced by JS object identity; the embedding gives
every entity a numeric id and stores the graph as a list indexed by id.  An
`AstDeclaration` is embedded by the three things the traversal reads from it:
its effective release tag (the value `collector.fetchApiItemMetadata(decl)
.effectiveReleaseTag` yields for it), its `referencedAstEntities`, and the
`astSymbol` ids of its `children`.  An `AstNamespaceImport` is embedded by the
`astEntity` ids of the `exportedLocalEntities` of its (memoized)
`fetchAstModuleExportInfo` result.  Every other entity (`AstImport`,
`AstSubPathImport`) falls into the terminal `else` branch of the traversal. -/

structure AstDeclarationModel where
  effectiveReleaseTag : ReleaseTag
  referencedAstEntities : List Nat
  children : List Nat
deriving DecidableEq, Repr

inductive AstEntityModel where
  | astSymbol (astDeclarations : List AstDeclarationModel)
  | astNamespaceImport (exportedLocalEntities : List Nat)
  | otherEntity
deriving DecidableEq, Repr

structure EntityGraph where
  entities : List AstEntityModel
deriving Repr

/-- Dereferences an entity id.  Ids outside the graph behave like terminal
entities (they can never arise from a well-formed symbol table). -/
def EntityGraph.entityAt (g : EntityGraph) (id : Nat) : AstEntityModel :=
  g.entities.getD id .otherEntity

/-- JS `Set.add`: keeps first-insertion order, no-op on a present element. -/
def addToSet (s : List Nat) (x : Nat) : List Nat :=
  if x ∈ s then s else s ++ [x]

/-- The trim test of `collectAllReferencedEntities`:
`releaseTag !== ReleaseTag.None && ReleaseTag.compare(releaseTag, releaseTimming) < 0`. -/
def trimmedDeclaration (releaseTimming : ReleaseTag) (d : AstDeclarationModel) : Bool :=
  d.effectiveReleaseTag != ReleaseTag.none &&
    decide (ReleaseTag.compare d.effectiveReleaseTag releaseTimming < 0)

/-- The `for (const astDeclaration of astEntity.astDeclarations)` loop body of
`collectReferencesFromAstEntity` for an `AstSymbol`: a trimmed declaration is
skipped (`continue`); otherwise the symbol is added to the referenced set and
the declaration's `referencedAstEntities` and `children` are queued for
recursion.  Returns the updated referenced set and the queued ids. -/
def processAstDeclarations (releaseTimming : ReleaseTag) (symbolId : Nat) :
    List AstDeclarationModel → List Nat → List Nat → List Nat × List Nat
  | [], referenced, queued => (referenced, queued)
  | d :: rest, referenced, queued =>
    if trimmedDeclaration releaseTimming d then
      processAstDeclarations releaseTimming symbolId rest referenced queued
    else
      processAstDeclarations releaseTimming symbolId rest (addToSet referenced symbolId)
        (queued ++ d.referencedAstEntities ++ d.children)

/-- The mutable state of `collectAllReferencedEntities`: the
`alreadySeenAstEntities` visited set and the `referencedAstEntities` result
set (both JS `Set<AstEntity>`). -/
structure CollectState where
  alreadySeenAstEntities : List Nat
  referencedAstEntities : List Nat
deriving DecidableEq, Repr

/-- Number of graph ids not yet visited (termination measure). -/
def unseenCount (g : EntityGraph) (seen : List Nat) : Nat :=
  ((Finset.range g.entities.length).filter (fun i => i ∉ seen)).card

/-- The recursive closure `collectReferencesFromAstEntity`, embedded as a
depth-first worklist: the head of the stack is the entity the source function
is currently called on, and the ids a call recurses into are pushed in front
of the rest of the stack (preserving the source's depth-first order).  An
already-seen entity returns immediately; otherwise it is marked seen and
dispatched on its variant exactly as in the source. -/
def collectLoop (g : EntityGraph) (releaseTimming : ReleaseTag) :
    List Nat → CollectState → CollectState
  | [], st => st
  | astEntity :: stack, st =>
    if astEntity ∈ st.alreadySeenAstEntities then
      collectLoop g releaseTimming stack st
    else
      let seen1 := st.alreadySeenAstEntities ++ [astEntity]
      match h : g.entityAt astEntity with
      | .astSymbol astDeclarations =>
        let pr := processAstDeclarations releaseTimming astEntity astDeclarations
          st.referencedAstEntities []
        collectLoop g releaseTimming (pr.2 ++ stack) ⟨seen1, pr.1⟩
      | .astNamespaceImport exportedLocalEntities =>
        collectLoop g releaseTimming (exportedLocalEntities ++ stack)
          ⟨seen1, addToSet st.referencedAstEntities astEntity⟩
      | .otherEntity =>
        collectLoop g releaseTimming stack
          ⟨seen1, addToSet st.referencedAstEntities astEntity⟩
termination_by stack st => (unseenCount g st.alreadySeenAstEntities, stack.length)
decreasing_by
  · apply Prod.Lex.right
    simp only [List.length_cons]
    omega
  · apply Prod.Lex.left
    have hlt : astEntity < g.entities.length := by
      by_contra hge
      have hdef : g.entityAt astEntity = .otherEntity :=
        List.getD_eq_default _ _ (by omega)
      rw [hdef] at h
      exact AstEntityModel.noConfusion h
    have hsub : (Finset.range g.entities.length).filter
        (fun i => i ∉ st.alreadySeenAstEntities ++ [astEntity]) ⊆
        (Finset.range g.entities.length).filter
        (fun i => i ∉ st.alreadySeenAstEntities) := by
      intro i hi
      simp only [Finset.mem_filter, List.mem_append, List.mem_singleton] at hi ⊢
      exact ⟨hi.1, fun hmem => hi.2 (Or.inl hmem)⟩
    apply Finset.card_lt_card
    rw [Finset.ssubset_iff_of_subset hsub]
    refine ⟨astEntity, ?_, ?_⟩
    · simp only [Finset.mem_filter, Finset.mem_range]
      exact ⟨hlt, by assumption⟩
    · simp only [Finset.mem_filter, List.mem_append, List.mem_singleton]
      intro hcontra
      exact hcontra.2 (Or.inr trivial)
  · apply Prod.Lex.left
    have hlt : astEntity < g.entities.length := by
      by_contra hge
      have hdef : g.entityAt astEntity = .otherEntity :=
        List.getD_eq_default _ _ (by omega)
      rw [hdef] at h
      exact AstEntityModel.noConfusion h
    have hsub : (Finset.range g.entities.length).filter
        (fun i => i ∉ st.alreadySeenAstEntities ++ [astEntity]) ⊆
        (Finset.range g.entities.length).filter
        (fun i => i ∉ st.alreadySeenAstEntities) := by
      intro i hi
      simp only [Finset.mem_filter, List.mem_append, List.mem_singleton] at hi ⊢
      exact ⟨hi.1, fun hmem => hi.2 (Or.inl hmem)⟩
    apply Finset.card_lt_card
    rw [Finset.ssubset_iff_of_subset hsub]
    refine ⟨astEntity, ?_, ?_⟩
    · simp only [Finset.mem_filter, Finset.mem_range]
      exact ⟨hlt, by assumption⟩
    · simp only [Finset.mem_filter, List.mem_append, List.mem_singleton]
      intro hcontra
      exact hcontra.2 (Or.inr trivial)
  · rcases Nat.lt_or_ge astEntity g.entities.length with hlt | hge
    · apply Prod.Lex.left
      have hsub : (Finset.range g.entities.length).filter
          (fun i => i ∉ st.alreadySeenAstEntities ++ [astEntity]) ⊆
          (Finset.range g.entities.length).filter
          (fun i => i ∉ st.alreadySeenAstEntities) := by
        intro i hi
        simp only [Finset.mem_filter, List.mem_append, List.mem_singleton] at hi ⊢
        exact ⟨hi.1, fun hmem => hi.2 (Or.inl hmem)⟩
      apply Finset.card_lt_card
      rw [Finset.ssubset_iff_of_subset hsub]
      refine ⟨astEntity, ?_, ?_⟩
      · simp only [Finset.mem_filter, Finset.mem_range]
        exact ⟨hlt, by assumption⟩
      · simp only [Finset.mem_filter, List.mem_append, List.mem_singleton]
        intro hcontra
        exact hcontra.2 (Or.inr trivial)
    · have heq : unseenCount g (st.alreadySeenAstEntities ++ [astEntity]) =
          unseenCount g st.alreadySeenAstEntities := by
        unfold unseenCount
        congr 1
        apply Finset.filter_congr
        intro i hi
        simp only [Finset.mem_range] at hi
        simp only [List.mem_append, List.mem_singleton, eq_iff_iff]
        constructor
        · intro hni hmem
          exact hni (Or.inl hmem)
        · intro hni hmem
          rcases hmem with hmem | hmem
          · exact hni hmem
          · omega
      simp only [unseenCount] at heq ⊢
      rw [heq]
      apply Prod.Lex.right
      simp only [List.length_cons]
      omega

/-! ## The Collector view used by `collectAllReferencedEntities` -/

/-- The projection of a `CollectorEntity` read by the reference-collection
pass: the id of the `astEntity` it wraps and its `exportNames` map. -/
structure CollectorEntityRecord where
  astEntity : Nat
  exportNames : List (String × Bool)
deriving DecidableEq, Repr

/-- Getter `exportedFromEntryPoint` (`this.exportNames.size > 0`) on the
projected record. -/
def CollectorEntityRecord.exportedFromEntryPoint (e : CollectorEntityRecord) : Bool :=
  decide (0 < e.exportNames.length)

/-- The `Collector` state consumed by `collectAllReferencedEntities`: its
ordered `entities` collection and the entity graph behind it (standing in for
`fetchApiItemMetadata` and the `astDeclarations`/`referencedAstEntities`/
`children`/`fetchAstModuleExportInfo` accessors). -/
structure CollectorModel where
  entities : List CollectorEntityRecord
  graph : EntityGraph

/-- `collector.tryGetCollectorEntity(astEntity)`: the entity→CollectorEntity
lookup table, embedded as the index of the (unique) record wrapping the id. -/
def CollectorModel.tryGetCollectorEntity (c : CollectorModel) (astId : Nat) :
    Option Nat :=
  c.entities.findIdx? (fun e => e.astEntity == astId)

/-- The seeding loop of `collectAllReferencedEntities`: every collector entity
that is exported from the entry point under at least one name outside
`rootExportTrimmings` has its `astEntity` passed to
`collectReferencesFromAstEntity`, in collection order. -/
def collectAllReferencedEntitiesCore (c : CollectorModel) (releaseTimming : ReleaseTag)
    (rootExportTrimmings : List String) : CollectState :=
  collectLoop c.graph releaseTimming
    ((c.entities.filter (fun e => e.exportedFromEntryPoint &&
        e.exportNames.any (fun p => !rootExportTrimmings.contains p.1))).map
      (fun e => e.astEntity))
    ⟨[], []⟩

/-- `collectAllReferencedEntities(collector, releaseTimming,
rootExportTrimmings)`: runs the traversal and re-expresses the referenced
`AstEntity` set through `tryGetCollectorEntity`, silently dropping entities
with no collector entity.  The result is the ordered set of collector-entity
indices. -/
def collectAllReferencedEntities (c : CollectorModel) (releaseTimming : ReleaseTag)
    (rootExportTrimmings : List String) : List Nat :=
  (collectAllReferencedEntitiesCore c releaseTimming
      rootExportTrimmings).referencedAstEntities.foldl
    (fun acc astId =>
      match c.tryGetCollectorEntity astId with
      | some ce => addToSet acc ce
      | none => acc) []

/-- Following the spec's words (not the source): a declaration whose effective
release tag is trimmed "contributes nothing (neither itself nor its children
nor its references) to the reduced set", so deleting every trimmed declaration
from its `AstSymbol` up front must not change the traversal. -/
def eraseTrimmedDeclarations (g : EntityGraph) (releaseTimming : ReleaseTag) :
    EntityGraph :=
  ⟨g.entities.map (fun e =>
    match e with
    | .astSymbol ds => .astSymbol (ds.filter (fun d => !trimmedDeclaration releaseTimming d))
    | e => e)⟩

/-! ## Concrete scenarios from the spec -/

/-- The cyclic reference graph of the spec's closure-termination scenario:
class `X` (id 0) references class `Y` (id 1) in a method signature, and `Y`
references `X` back. -/
def cyclicGraph : EntityGraph :=
  ⟨[.astSymbol [⟨.public, [1], []⟩], .astSymbol [⟨.public, [0], []⟩]]⟩

/-- Collector for the cyclic scenario: both classes are exported. -/
def cyclicCollector : CollectorModel :=
  ⟨[⟨0, [("X", false)]⟩, ⟨1, [("Y", false)]⟩], cyclicGraph⟩

/-- The spec's trimming-partiality scenario: symbol 0 has two merged
declarations, one tagged Beta (referencing entity 1) and one tagged Internal
(referencing entity 2). -/
def trimScenarioGraph : EntityGraph :=
  ⟨[.astSymbol [⟨.beta, [1], []⟩, ⟨.internal, [2], []⟩],
    .astSymbol [⟨.beta, [], []⟩],
    .astSymbol [⟨.beta, [], []⟩]]⟩

/-- Collector for the trimming scenario: only symbol 0 is exported. -/
def trimScenarioCollector : CollectorModel :=
  ⟨[⟨0, [("Entity", false)]⟩, ⟨1, []⟩, ⟨2, []⟩], trimScenarioGraph⟩

/-! ## AstImport and AstSubPathImport (`analyzer/AstSubPathImport.ts`) -/

/-- The `AstImportKind` enumeration. -/
inductive AstImportKind where
  | DefaultImport
  | NamedImport
  | StarImport
  | EqualsImport
deriving DecidableEq, Repr

/-- Constructor options `IAstImportOptions` (`exportPath` is optional). -/
structure IAstImportOptions where
  importKind : AstImportKind
  modulePath : String
  exportName : String
  exportPath : Option (List String)
  isTypeOnly : Bool
deriving DecidableEq, Repr

/-- `array.join('.')`. -/
def joinDot (path : List String) : String :=
  String.intercalate "." path

/-- Static `AstImport.getKey(options)`.  Note the JS truthiness test
`options.exportPath ? ... : ...` distinguishes only `undefined` (an empty
array is truthy).  The `default` switch branch (an `InternalError`) is
unreachable here because the embedded kind enumeration is closed. -/
def AstImport.getKey (options : IAstImportOptions) : String :=
  match options.importKind with
  | .DefaultImport =>
    options.modulePath ++ ":" ++
      (match options.exportPath with
       | some p => joinDot p
       | none => options.exportName)
  | .NamedImport =>
    options.modulePath ++ ":" ++
      (match options.exportPath with
       | some p => joinDot p
       | none => options.exportName)
  | .StarImport =>
    options.modulePath ++ ":*" ++
      (match options.exportPath with
       | some p => joinDot (p.drop 1)
       | none => "")
  | .EqualsImport =>
    options.modulePath ++ ":=" ++
      (match options.exportPath with
       | some p => joinDot (p.drop 1)
       | none => "")

/-- The `AstImport` instance fields set by its constructor (the lazily
assigned `astSymbol` back-reference is omitted: it is `undefined` at
construction and never read by the embedded operations). -/
structure AstImport where
  importKind : AstImportKind
  modulePath : String
  exportName : String
  exportPath : List String
  isTypeOnlyEverywhere : Bool
  key : String
deriving DecidableEq, Repr

/-- The `AstImport` constructor: `exportPath` defaults to `[exportName]` only
when the option is `undefined` (`options.exportPath ? options.exportPath :
[options.exportName]` — an explicitly supplied empty array is truthy and is
stored as-is, unchecked). -/
def AstImport.new (options : IAstImportOptions) : AstImport :=
  { importKind := options.importKind
    modulePath := options.modulePath
    exportName := options.exportName
    exportPath :=
      match options.exportPath with
      | some p => p
      | none => [options.exportName]
    isTypeOnlyEverywhere := options.isTypeOnly
    key := AstImport.getKey options }

/-- Constructor options `IAstSubPathImportOptions`; the base `astEntity` is an
entity-graph id. -/
structure IAstSubPathImportOptions where
  astEntity : Nat
  exportPath : List String
  localName : Option String
  isImportType : Bool
deriving DecidableEq, Repr

/-- The `AstSubPathImport` instance fields. -/
structure AstSubPathImport where
  baseAstEntity : Nat
  exportPath : List String
  localName : String
  isImportTypeEverywhere : Bool
deriving DecidableEq, Repr

/-- The `AstSubPathImport` constructor: throws an `InternalError` when
`options.exportPath.length === 0`, otherwise stores the fields, defaulting
`localName` (via `??`) to the last path segment. -/
def AstSubPathImport.new (options : IAstSubPathImportOptions) :
    Except String AstSubPathImport :=
  if options.exportPath.length == 0 then
    .error "AstSubPathImport.exportPath cannot be empty"
  else
    .ok { baseAstEntity := options.astEntity
          exportPath := options.exportPath
          localName :=
            match options.localName with
            | some n => n
            | none => options.exportPath.getLastD ""
          isImportTypeEverywhere := options.isImportType }

/-! ## DtsEmitHelpers.emitImport (`generators/utils.ts`) -/

/-- JS template interpolation of a `string | undefined` value. -/
def jsStringOf (o : Option String) : String :=
  match o with
  | some s => s
  | none => "undefined"

/-- The fields of the emitting `CollectorEntity` read by `emitImport`. -/
structure EmitCollectorEntity where
  nameForEmit : Option String
deriving DecidableEq, Repr

/-- `DtsEmitHelpers.emitImport(stringWriter, collector, collectorEntity,
astImport)`.  The two collector queries it performs
(`collector.astSymbolTable.tryGetReferencedAstImport` and
`collector.tryGetCollectorEntity`) are passed as function arguments; the
`StringWriter` output is returned, and thrown errors become `Except.error`.
The `default` switch branch (`InternalError('Unimplemented AstImportKind')`)
is unreachable because the embedded kind enumeration is closed. -/
def DtsEmitHelpers.emitImport
    (tryGetReferencedAstImport : AstImport → Option AstImport)
    (tryGetCollectorEntity : AstImport → Option EmitCollectorEntity)
    (collectorEntity : EmitCollectorEntity) (astImport : AstImport) :
    Except String String :=
  if 1 < astImport.exportPath.length then
    match tryGetReferencedAstImport astImport with
    | none =>
      .error "For an AstImport of \"EqualsImport\" from namespace, there must have a referenced base AstImport."
    | some referencedAstImport =>
      match tryGetCollectorEntity referencedAstImport with
      | none =>
        .error ("Cannot find collector entity for referenced AstImport: " ++
          referencedAstImport.modulePath ++ ":" ++ referencedAstImport.exportName)
      | some referencedCollectorEntity =>
        .ok ("import " ++ jsStringOf collectorEntity.nameForEmit ++ " = " ++
          jsStringOf referencedCollectorEntity.nameForEmit ++ "." ++
          joinDot (astImport.exportPath.drop 1) ++ ";\n")
  else
    let importKeyword := if astImport.isTypeOnlyEverywhere then "import type" else "import"
    match astImport.importKind with
    | .DefaultImport =>
      .ok ((if collectorEntity.nameForEmit != some astImport.exportName then
              importKeyword ++ " \x7b default as " ++
                jsStringOf collectorEntity.nameForEmit ++ " \x7d"
            else
              importKeyword ++ " " ++ astImport.exportName) ++
           " from '" ++ astImport.modulePath ++ "';\n")
    | .NamedImport =>
      .ok ((if collectorEntity.nameForEmit != some astImport.exportName then
              importKeyword ++ " \x7b " ++ astImport.exportName ++ " as " ++
                jsStringOf collectorEntity.nameForEmit ++ " \x7d"
            else
              importKeyword ++ " \x7b " ++ astImport.exportName ++ " \x7d") ++
           " from '" ++ astImport.modulePath ++ "';\n")
    | .StarImport =>
      .ok (importKeyword ++ " * as " ++ jsStringOf collectorEntity.nameForEmit ++
        " from '" ++ astImport.modulePath ++ "';\n")
    | .EqualsImport =>
      .ok (importKeyword ++ " " ++ jsStringOf collectorEntity.nameForEmit ++
        " = require('" ++ astImport.modulePath ++ "');\n")

/-- A concrete deep-path `AstImport` (`import { a } from "m/n"; import b2 =
a.x; import y2 = b2.y;` gives `y2` exportPath `["a","x","y"]`). -/
def deepAstImportExample : AstImport :=
  AstImport.new ⟨.NamedImport, "m/n", "y", some ["a", "x", "y"], false⟩

/-- The referenced base `AstImport` of the deep-path example. -/
def baseAstImportExample : AstImport :=
  AstImport.new ⟨.NamedImport, "m/n", "a", none, false⟩

/-! # Helper lemmas -/

theorem mapHas_iff (m : List (String × Bool)) (k : String) :
    mapHas m k = true ↔ k ∈ m.map Prod.fst := by
  simp only [mapHas, List.any_eq_true, List.mem_map, beq_iff_eq]

theorem mem_addToSet (s : List Nat) (x y : Nat) :
    y ∈ addToSet s x ↔ y ∈ s ∨ y = x := by
  unfold addToSet
  split
  · constructor
    · exact Or.inl
    · rintro (hy | rfl)
      · exact hy
      · assumption
  · simp [List.mem_append]

theorem subset_addToSet (s : List Nat) (x : Nat) : s ⊆ addToSet s x := by
  intro y hy
  rw [mem_addToSet]
  exact Or.inl hy

/-! # Claim C3 — AstImport.getKey determinism -/

/-- C3 counterexample: two construction option records with the same
`modulePath` (`"m"`) and the same `exportPath` (`["X"]`) but different
`importKind`s (`NamedImport` vs `StarImport`) receive different keys
(`"m:X"` vs `"m:*"`), so equal `modulePath` + `exportPath` alone do not
guarantee equal keys. -/
theorem astImport_getKey_counterexample :
    (IAstImportOptions.mk .NamedImport "m" "X" (some ["X"]) false).modulePath =
      (IAstImportOptions.mk .StarImport "m" "X" (some ["X"]) false).modulePath ∧
    (IAstImportOptions.mk .NamedImport "m" "X" (some ["X"]) false).exportPath =
      (IAstImportOptions.mk .StarImport "m" "X" (some ["X"]) false).exportPath ∧
    AstImport.getKey (IAstImportOptions.mk .NamedImport "m" "X" (some ["X"]) false) ≠
      AstImport.getKey (IAstImportOptions.mk .StarImport "m" "X" (some ["X"]) false) := by
  refine ⟨rfl, rfl, ?_⟩
  decide

/-- C3 (amended): `AstImport.getKey` is a deterministic function of
`importKind`, `modulePath`, `exportName` and `exportPath` — two option
records agreeing on those four fields (whatever their `isTypeOnly` flags)
receive equal key strings, and the constructed `AstImport` instances are
key-equal. -/
theorem astImport_getKey_deterministic (o1 o2 : IAstImportOptions)
    (hk : o1.importKind = o2.importKind) (hm : o1.modulePath = o2.modulePath)
    (hn : o1.exportName = o2.exportName) (hp : o1.exportPath = o2.exportPath) :
    AstImport.getKey o1 = AstImport.getKey o2 ∧
      (AstImport.new o1).key = (AstImport.new o2).key := by
  obtain ⟨k1, m1, n1, p1, t1⟩ := o1
  obtain ⟨k2, m2, n2, p2, t2⟩ := o2
  simp only at hk hm hn hp
  subst hk hm hn hp
  exact ⟨rfl, rfl⟩

/-- Witness for C3: two records identical except for `isTypeOnly` get the
same key. -/
theorem astImport_getKey_deterministic_witness :
    AstImport.getKey (IAstImportOptions.mk .NamedImport "m" "X" (some ["X"]) false) =
      AstImport.getKey (IAstImportOptions.mk .NamedImport "m" "X" (some ["X"]) true) ∧
    (AstImport.new (IAstImportOptions.mk .NamedImport "m" "X" (some ["X"]) false)).key =
      (AstImport.new (IAstImportOptions.mk .NamedImport "m" "X" (some ["X"]) true)).key :=
  astImport_getKey_deterministic _ _ rfl rfl rfl rfl

/-! # Claim C9 — non-empty exportPath invariants -/

/-- C9 counterexample: the `AstImport` constructor accepts an explicitly
supplied empty `exportPath` array unchecked (an empty array is truthy in JS),
producing an instance with `exportPath.length = 0`, so not every constructed
`AstImport` has `exportPath` of length at least 1. -/
theorem astImport_emptyExportPath_counterexample :
    (AstImport.new (IAstImportOptions.mk .NamedImport "m" "X" (some []) false)).exportPath.length
      = 0 := rfl

/-- C9 (amended): `AstSubPathImport` construction succeeds exactly when the
supplied `exportPath` is non-empty (raising the internal error otherwise), and
every successfully constructed instance keeps that non-empty path; the
`AstImport` constructor defaults `exportPath` to `[exportName]` only when the
option is absent, so its `exportPath` has length at least 1 whenever the
supplied option is absent or non-empty (an explicitly supplied empty array is
stored unchecked). -/
theorem exportPath_nonempty_invariant (o : IAstSubPathImportOptions)
    (oi : IAstImportOptions) :
    ((∃ s, AstSubPathImport.new o = .ok s) ↔ o.exportPath ≠ []) ∧
    (∀ s, AstSubPathImport.new o = .ok s →
      s.exportPath = o.exportPath ∧ 1 ≤ s.exportPath.length) ∧
    ((oi.exportPath = none ∨ oi.exportPath.getD [] ≠ []) →
      1 ≤ (AstImport.new oi).exportPath.length) := by
  refine ⟨?_, ?_, ?_⟩
  · unfold AstSubPathImport.new
    constructor
    · rintro ⟨s, hs⟩ hemp
      rw [if_pos (by simp [hemp])] at hs
      exact Except.noConfusion hs
    · intro hne
      rw [if_neg (by simp [hne])]
      exact ⟨_, rfl⟩
  · intro s hs
    unfold AstSubPathImport.new at hs
    by_cases hemp : o.exportPath = []
    · rw [if_pos (by simp [hemp])] at hs
      exact Except.noConfusion hs
    · rw [if_neg (by simp [hemp])] at hs
      injection hs with hs
      subst hs
      refine ⟨rfl, ?_⟩
      cases hp : o.exportPath with
      | nil => exact absurd hp hemp
      | cons x xs => simp
  · intro hcase
    unfold AstImport.new
    rcases hcase with hnone | hne
    · simp [hnone]
    · cases hp : oi.exportPath with
      | none => simp
      | some p =>
        rw [hp] at hne
        simp only [Option.getD_some] at hne
        cases p with
        | nil => exact absurd rfl hne
        | cons x xs => simp

/-- Witness for C9: a two-segment sub-path import constructs successfully,
and an `AstImport` built without an `exportPath` option has a one-element
path. -/
theorem exportPath_nonempty_invariant_witness :
    (∃ s, AstSubPathImport.new (IAstSubPathImportOptions.mk 5 ["Y", "Z"] none true) = .ok s) ∧
    1 ≤ (AstImport.new (IAstImportOptions.mk .NamedImport "m" "X" none false)).exportPath.length :=
  ⟨(exportPath_nonempty_invariant (IAstSubPathImportOptions.mk 5 ["Y", "Z"] none true)
      (IAstImportOptions.mk .NamedImport "m" "X" none false)).1.mpr (by decide),
   (exportPath_nonempty_invariant (IAstSubPathImportOptions.mk 5 ["Y", "Z"] none true)
      (IAstImportOptions.mk .NamedImport "m" "X" none false)).2.2 (Or.inl rfl)⟩

/-! # Claim C6 — emitImport for deep export paths -/

/-- C6: for an `AstImport` whose `exportPath` is longer than 1, `emitImport`
raises (propagates) an error when the symbol table yields no referenced base
`AstImport`, raises an error when that base has no `CollectorEntity`, and
otherwise emits `import <nameForEmit> = <baseNameForEmit>.<rest.of.path>;`
where the rest is the `exportPath` minus its first element. -/
theorem emitImport_deepPath (f : AstImport → Option AstImport)
    (g : AstImport → Option EmitCollectorEntity) (ce : EmitCollectorEntity)
    (ai : AstImport) (hlen : 1 < ai.exportPath.length) :
    (f ai = none → DtsEmitHelpers.emitImport f g ce ai =
      .error "For an AstImport of \"EqualsImport\" from namespace, there must have a referenced base AstImport.") ∧
    (∀ base, f ai = some base → g base = none →
      DtsEmitHelpers.emitImport f g ce ai =
        .error ("Cannot find collector entity for referenced AstImport: " ++
          base.modulePath ++ ":" ++ base.exportName)) ∧
    (∀ base rce, f ai = some base → g base = some rce →
      DtsEmitHelpers.emitImport f g ce ai =
        .ok ("import " ++ jsStringOf ce.nameForEmit ++ " = " ++
          jsStringOf rce.nameForEmit ++ "." ++
          joinDot (ai.exportPath.drop 1) ++ ";\n")) := by
  unfold DtsEmitHelpers.emitImport
  rw [if_pos hlen]
  refine ⟨?_, ?_, ?_⟩
  · intro hf
    rw [hf]
  · intro base hf hg
    simp only [hf, hg]
  · intro base rce hf hg
    simp only [hf, hg]

/-- Witness for C6: the deep-path example `import y2 = b2.y` (exportPath
`["a","x","y"]`) with a resolvable base emits the relative equals-reference. -/
theorem emitImport_deepPath_witness :
    DtsEmitHelpers.emitImport (fun _ => some baseAstImportExample)
      (fun _ => some (EmitCollectorEntity.mk (some "a_2")))
      (EmitCollectorEntity.mk (some "y2")) deepAstImportExample =
      .ok "import y2 = a_2.x.y;\n" := by
  have h := (emitImport_deepPath (fun _ => some baseAstImportExample)
      (fun _ => some (EmitCollectorEntity.mk (some "a_2")))
      (EmitCollectorEntity.mk (some "y2")) deepAstImportExample (by decide)).2.2
      baseAstImportExample (EmitCollectorEntity.mk (some "a_2")) rfl rfl
  rw [h]
  rfl

/-! # Claim C10 — addExportName is idempotent per name -/

/-- C10: registering an already-present export name is a no-op (the whole
entity state, including the stored type-only flag, is unchanged even when the
new call passes a different flag), so `addExportName` is idempotent per name
and the first registration's flag wins. -/
theorem addExportName_idempotent (e : CollectorEntity) (n : String) (f f' : Bool)
    (h : mapHas e.exportNamesMap n = true) :
    e.addExportName n f = e ∧
      (e.addExportName n f').addExportName n f = e.addExportName n f' := by
  constructor
  · unfold CollectorEntity.addExportName
    rw [if_pos h]
  · unfold CollectorEntity.addExportName
    rw [if_pos h, if_pos h]

/-- Witness for C10: after registering `"X"` as type-only, re-registering
`"X"` (even non-type-only) changes nothing. -/
theorem addExportName_idempotent_witness :
    ((CollectorEntity.new .astSymbol).addExportName "X" true).addExportName "X" false =
      (CollectorEntity.new .astSymbol).addExportName "X" true := by
  have h := (addExportName_idempotent
      ((CollectorEntity.new .astSymbol).addExportName "X" true) "X" false true
      (by decide)).1
  exact h

/-! # State characterization of addExportName sequences -/

theorem applyAddExportNames_shape_aux (a : AstEntityVariant)
    (adds : List (String × Bool)) :
    ∀ (m : List (String × Bool)) (parents : List (CollectorEntity × List (String × Bool)))
      (emit : Option String),
    applyAddExportNames adds (.mk a m false (singleOf m) parents emit) =
      .mk a (adds.foldl addOccurrence m) false (singleOf (adds.foldl addOccurrence m))
        parents emit := by
  induction adds with
  | nil => intro m parents emit; rfl
  | cons p rest ih =>
    intro m parents emit
    simp only [applyAddExportNames, List.foldl_cons]
    by_cases hhas : mapHas m p.1 = true
    · have hstep : (CollectorEntity.mk a m false (singleOf m) parents emit).addExportName
          p.1 p.2 = .mk a m false (singleOf m) parents emit := by
        unfold CollectorEntity.addExportName
        simp only [CollectorEntity.exportNamesMap]
        rw [if_pos hhas]
      have hocc : addOccurrence m p = m := by
        unfold addOccurrence
        rw [if_pos hhas]
      rw [hstep, hocc]
      exact ih m parents emit
    · have hstep : (CollectorEntity.mk a m false (singleOf m) parents emit).addExportName
          p.1 p.2 = .mk a (m ++ [p]) false (singleOf (m ++ [p])) parents emit := by
        unfold CollectorEntity.addExportName
        simp only [CollectorEntity.exportNamesMap, CollectorEntity.astEntity,
          CollectorEntity.localExportNamesByParent, CollectorEntity.nameForEmit]
        rw [if_neg hhas]
        have hsingle : (if (m ++ [(p.1, p.2)]).length == 1 then some p.1 else none) =
            singleOf (m ++ [(p.1, p.2)]) := by
          cases m with
          | nil => rfl
          | cons x xs =>
            simp only [List.length_append, List.length_cons, List.length_nil]
            rw [if_neg (by simp)]
            cases xs with
            | nil => rfl
            | cons y ys => rfl
        rw [hsingle]
      have hocc : addOccurrence m p = m ++ [p] := by
        unfold addOccurrence
        rw [if_neg hhas]
      rw [hstep, hocc]
      exact ih (m ++ [p]) parents emit

/-- Replaying a call sequence on a freshly constructed entity yields exactly
the first-occurrence map and the size-derived `_singleExportName`. -/
theorem applyAddExportNames_shape (a : AstEntityVariant) (adds : List (String × Bool)) :
    applyAddExportNames adds (CollectorEntity.new a) =
      .mk a (firstOccurrences adds) false (singleOf (firstOccurrences adds)) [] none :=
  applyAddExportNames_shape_aux a adds [] [] none

theorem mem_keys_foldl_addOccurrence (adds : List (String × Bool)) :
    ∀ (m : List (String × Bool)) (x : String),
    x ∈ (adds.foldl addOccurrence m).map Prod.fst ↔
      x ∈ m.map Prod.fst ∨ x ∈ adds.map Prod.fst := by
  induction adds with
  | nil => intro m x; simp
  | cons p rest ih =>
    intro m x
    simp only [List.foldl_cons, List.map_cons, List.mem_cons]
    rw [ih]
    unfold addOccurrence
    by_cases hhas : mapHas m p.1 = true
    · rw [if_pos hhas]
      rw [mapHas_iff] at hhas
      constructor
      · rintro (hm | hr)
        · exact Or.inl hm
        · exact Or.inr (Or.inr hr)
      · rintro (hm | heq | hr)
        · exact Or.inl hm
        · subst heq; exact Or.inl hhas
        · exact Or.inr hr
    · rw [if_neg hhas]
      simp only [List.map_append, List.map_cons, List.map_nil, List.mem_append,
        List.mem_cons, List.not_mem_nil, or_false]
      tauto

theorem foldl_addOccurrence_prefix (adds : List (String × Bool)) :
    ∀ (m : List (String × Bool)), ∃ tl, adds.foldl addOccurrence m = m ++ tl := by
  induction adds with
  | nil => intro m; exact ⟨[], by simp⟩
  | cons p rest ih =>
    intro m
    simp only [List.foldl_cons]
    by_cases hhas : mapHas m p.1 = true
    · rw [show addOccurrence m p = m from by unfold addOccurrence; rw [if_pos hhas]]
      exact ih m
    · rw [show addOccurrence m p = m ++ [p] from by unfold addOccurrence; rw [if_neg hhas]]
      obtain ⟨tl, htl⟩ := ih (m ++ [p])
      exact ⟨[p] ++ tl, by rw [htl, List.append_assoc]⟩

theorem foldl_addOccurrence_collapse (n : String) (f : Bool)
    (adds : List (String × Bool)) (hall : ∀ p ∈ adds, p.1 = n) :
    adds.foldl addOccurrence [(n, f)] = [(n, f)] := by
  induction adds with
  | nil => rfl
  | cons p rest ih =>
    simp only [List.foldl_cons]
    have hp : p.1 = n := hall p (List.mem_cons_self p rest)
    have hhas : mapHas [(n, f)] p.1 = true := by
      rw [mapHas_iff, hp]
      simp
    unfold addOccurrence
    rw [if_pos hhas]
    exact ih (fun q hq => hall q (List.mem_cons_of_mem p hq))

theorem singleOf_eq_some (m : List (String × Bool)) (n : String)
    (h : singleOf m = some n) : ∃ f, m = [(n, f)] := by
  unfold singleOf at h
  match m, h with
  | [(n', f)], h =>
    injection h with h
    exact ⟨f, by rw [h]⟩

theorem firstOccurrences_single_iff (adds : List (String × Bool)) (n : String) (f : Bool) :
    firstOccurrences adds = [(n, f)] ↔
      ∃ rest, adds = (n, f) :: rest ∧ ∀ p ∈ rest, p.1 = n := by
  constructor
  · intro h
    cases hadds : adds with
    | nil => rw [hadds] at h; exact absurd h (by simp [firstOccurrences])
    | cons p0 rest =>
      rw [hadds] at h
      unfold firstOccurrences at h
      simp only [List.foldl_cons] at h
      have h0 : addOccurrence [] p0 = [p0] := by
        unfold addOccurrence
        rw [if_neg (by simp [mapHas])]
        simp
      rw [h0] at h
      obtain ⟨tl, htl⟩ := foldl_addOccurrence_prefix rest [p0]
      rw [htl] at h
      have hp0 : p0 = (n, f) ∧ tl = [] := by
        cases tl with
        | nil => simp at h; exact ⟨h, rfl⟩
        | cons t ts =>
          simp only [List.cons_append, List.nil_append] at h
          have := congrArg List.length h
          simp at this
      refine ⟨rest, by rw [hp0.1], ?_⟩
      intro p hp
      have hmem : p.1 ∈ ((p0 :: rest).foldl addOccurrence []).map Prod.fst := by
        rw [mem_keys_foldl_addOccurrence]
        exact Or.inr (List.mem_map_of_mem Prod.fst (List.mem_cons_of_mem p0 hp))
      have hfo : (p0 :: rest).foldl addOccurrence [] = [(n, f)] := by
        simp only [List.foldl_cons, h0]
        rw [htl, hp0.2, hp0.1]
        simp
      rw [hfo] at hmem
      simpa using hmem
  · rintro ⟨rest, rfl, hall⟩
    unfold firstOccurrences
    simp only [List.foldl_cons]
    have h0 : addOccurrence [] (n, f) = [(n, f)] := by
      unfold addOccurrence
      rw [if_neg (by simp [mapHas])]
      simp
    rw [h0]
    exact foldl_addOccurrence_collapse n f rest hall

theorem mem_keys_firstOccurrences (adds : List (String × Bool)) (x : String) :
    x ∈ (firstOccurrences adds).map Prod.fst ↔ x ∈ adds.map Prod.fst := by
  unfold firstOccurrences
  rw [mem_keys_foldl_addOccurrence]
  simp

theorem mem_keys_sortMapKeys (m : List (String × Bool)) (x : String) :
    x ∈ (sortMapKeys m).map Prod.fst ↔ x ∈ m.map Prod.fst := by
  unfold sortMapKeys
  constructor
  · intro hmem
    rw [List.mem_map] at hmem ⊢
    obtain ⟨p, hp, hpx⟩ := hmem
    exact ⟨p, (List.perm_insertionSort _ m).mem_iff.mp hp, hpx⟩
  · intro hmem
    rw [List.mem_map] at hmem ⊢
    obtain ⟨p, hp, hpx⟩ := hmem
    exact ⟨p, (List.perm_insertionSort _ m).mem_iff.mpr hp, hpx⟩

/-! # Claim C8 — singleExportName is the unique registered name -/

/-- C8: after any call sequence on a fresh entity, `singleExportName` is
`some n` exactly when the sequence is non-empty and registers no name other
than `n`; in particular registering the two names `X` and `Y` leaves it
undefined. -/
theorem singleExportName_spec (a : AstEntityVariant) (adds : List (String × Bool))
    (n : String) :
    ((applyAddExportNames adds (CollectorEntity.new a)).singleExportName = some n ↔
      adds ≠ [] ∧ ∀ p ∈ adds, p.1 = n) ∧
    (applyAddExportNames [("X", false), ("Y", false)]
      (CollectorEntity.new a)).singleExportName = none := by
  constructor
  · rw [applyAddExportNames_shape]
    simp only [CollectorEntity.singleExportName, CollectorEntity.singleExportNameField]
    constructor
    · intro h
      obtain ⟨f, hf⟩ := singleOf_eq_some _ _ h
      rw [firstOccurrences_single_iff] at hf
      obtain ⟨rest, hrest, hall⟩ := hf
      subst hrest
      refine ⟨by simp, ?_⟩
      intro p hp
      rcases List.mem_cons.mp hp with rfl | hp
      · rfl
      · exact hall p hp
    · rintro ⟨hne, hall⟩
      cases hadds : adds with
      | nil => exact absurd hadds hne
      | cons p0 rest =>
        subst hadds
        have hp0 : p0 = (n, p0.2) := by
          have := hall p0 (List.mem_cons_self p0 rest)
          exact Prod.ext this rfl
        have hfo : firstOccurrences (p0 :: rest) = [(n, p0.2)] := by
          rw [firstOccurrences_single_iff]
          exact ⟨rest, by rw [← hp0], fun p hp => hall p (List.mem_cons_of_mem p0 hp)⟩
        rw [hfo]
        rfl
  · rw [applyAddExportNames_shape]
    rfl

/-! # Claim C7 — exportNames reading order -/

/-- C7 counterexample: registering `"b"` then `"a"` and reading `exportNames`
yields the names in sorted order `["a", "b"]`, not the first-insertion order
`["b", "a"]`. -/
theorem exportNames_insertion_order_counterexample :
    (((CollectorEntity.new .astSymbol).addExportName "b" false).addExportName
        "a" false).exportNames.map Prod.fst = ["a", "b"] ∧
      (["a", "b"] : List String) ≠ ["b", "a"] := by
  constructor
  · simp [CollectorEntity.new, CollectorEntity.addExportName, CollectorEntity.exportNames,
      CollectorEntity.exportNamesMap, CollectorEntity.exportNamesSortedFlag, mapHas,
      sortMapKeys, List.insertionSort, List.orderedInsert]
    decide
  · decide

/-- C7 (amended): reading `exportNames` after any call sequence on a fresh
entity yields the registered export names in sorted key order (a name is
present exactly when some call registered it), not in first-insertion order. -/
theorem exportNames_sorted_spec (a : AstEntityVariant) (adds : List (String × Bool)) :
    ((applyAddExportNames adds (CollectorEntity.new a)).exportNames.map
      Prod.fst).Pairwise (· ≤ ·) ∧
    (∀ n, n ∈ (applyAddExportNames adds (CollectorEntity.new a)).exportNames.map
      Prod.fst ↔ n ∈ adds.map Prod.fst) := by
  rw [applyAddExportNames_shape]
  have hexp : (CollectorEntity.mk a (firstOccurrences adds) false
      (singleOf (firstOccurrences adds)) [] none).exportNames =
      sortMapKeys (firstOccurrences adds) := rfl
  rw [hexp]
  constructor
  · haveI htot : IsTotal (String × Bool) (fun x y => x.1 ≤ y.1) :=
      ⟨fun x y => le_total x.1 y.1⟩
    haveI htrans : IsTrans (String × Bool) (fun x y => x.1 ≤ y.1) :=
      ⟨fun x y z hxy hyz => le_trans hxy hyz⟩
    have hs := List.sorted_insertionSort (fun x y : String × Bool => x.1 ≤ y.1)
      (firstOccurrences adds)
    rw [List.pairwise_map]
    unfold sortMapKeys
    exact hs
  · intro n
    rw [mem_keys_sortMapKeys, mem_keys_firstOccurrences]

/-! # Claim C4 — shouldInlineExport -/

/-- C4 counterexample: a local `AstSymbol` entity whose single registered
export name is `"default"` (not type-only, no `nameForEmit` assigned)
satisfies every condition of the claim, yet `shouldInlineExport` is `false`
because of the additional `ts.InternalSymbolName.Default` exclusion. -/
theorem shouldInlineExport_counterexample :
    ((CollectorEntity.new .astSymbol).addExportName "default" false).astEntity
        = .astSymbol ∧
    ((CollectorEntity.new .astSymbol).addExportName "default" false).singleExportName
        = some "default" ∧
    mapGet ((CollectorEntity.new .astSymbol).addExportName
        "default" false).exportNamesMap "default" = some false ∧
    ((CollectorEntity.new .astSymbol).addExportName "default" false).nameForEmit
        = none ∧
    ((CollectorEntity.new .astSymbol).addExportName "default" false).shouldInlineExport
        = false := by
  refine ⟨?_, ?_, ?_, ?_, ?_⟩ <;> decide

/-- C4 (amended): after any call sequence on a fresh entity (with
`nameForEmit` then set to `emit`), `shouldInlineExport` is `true` exactly when
the wrapped entity is an `AstSymbol`, exactly one export name `n` is
registered, `n` is not the special default-export name `"default"`, `n` is
not a type-only export, and `nameForEmit` is unassigned or equals `n`. -/
theorem shouldInlineExport_spec (a : AstEntityVariant) (emit : Option String)
    (adds : List (String × Bool)) :
    ((applyAddExportNames adds (CollectorEntity.new a)).setNameForEmit
        emit).shouldInlineExport = true ↔
      (a = .astSymbol ∧ ∃ n f rest, adds = (n, f) :: rest ∧ (∀ p ∈ rest, p.1 = n) ∧
        n ≠ "default" ∧ f = false ∧ (emit = none ∨ emit = some n)) := by
  rw [applyAddExportNames_shape]
  have hset : (CollectorEntity.mk a (firstOccurrences adds) false
      (singleOf (firstOccurrences adds)) [] none).setNameForEmit emit =
      .mk a (firstOccurrences adds) false (singleOf (firstOccurrences adds)) [] emit := rfl
  rw [hset]
  cases a with
  | astImport => simp [CollectorEntity.shouldInlineExport, CollectorEntity.astEntity]
  | astNamespaceImport => simp [CollectorEntity.shouldInlineExport, CollectorEntity.astEntity]
  | astSubPathImport => simp [CollectorEntity.shouldInlineExport, CollectorEntity.astEntity]
  | astSymbol =>
    simp only [CollectorEntity.shouldInlineExport, CollectorEntity.astEntity,
      CollectorEntity.singleExportName, CollectorEntity.singleExportNameField,
      CollectorEntity.exportNamesMap, CollectorEntity.nameForEmit, true_and]
    cases hso : singleOf (firstOccurrences adds) with
    | none =>
      constructor
      · intro h
        exact absurd h (by simp)
      · rintro ⟨n, f, rest, hadds, hall, -, -, -⟩
        have hfo : firstOccurrences adds = [(n, f)] :=
          (firstOccurrences_single_iff adds n f).mpr ⟨rest, hadds, hall⟩
        rw [hfo] at hso
        exact Option.noConfusion hso
    | some single =>
      obtain ⟨fl, hfo⟩ := singleOf_eq_some _ _ hso
      obtain ⟨rest, hadds, hall⟩ := (firstOccurrences_single_iff adds single fl).mp hfo
      rw [hfo]
      by_cases hdef : single = "default"
      · subst hdef
        constructor
        · intro h
          exact absurd h (by simp [mapGet])
        · rintro ⟨n, f, rest2, hadds2, -, hne, -, -⟩
          rw [hadds] at hadds2
          have hhead : ("default", fl) = (n, f) := ((List.cons.injEq _ _ _ _).mp hadds2).1
          exact absurd (congrArg Prod.fst hhead).symm hne
      · cases fl with
        | true =>
          constructor
          · intro h
            exact absurd h (by simp [hdef, mapGet])
          · rintro ⟨n, f, rest2, hadds2, -, -, hf, -⟩
            rw [hadds] at hadds2
            have hhead : (single, true) = (n, f) := ((List.cons.injEq _ _ _ _).mp hadds2).1
            have hft : f = true := (congrArg Prod.snd hhead).symm
            rw [hf] at hft
            exact Bool.noConfusion hft
        | false =>
          constructor
          · intro h
            refine ⟨single, false, rest, hadds, hall, hdef, rfl, ?_⟩
            by_contra hcontra
            push_neg at hcontra
            simp [hdef, mapGet, hcontra.1, hcontra.2] at h
          · rintro ⟨n, f, rest2, hadds2, -, -, -, hemit⟩
            rw [hadds] at hadds2
            have hhead : (single, false) = (n, f) := ((List.cons.injEq _ _ _ _).mp hadds2).1
            have hn : single = n := congrArg Prod.fst hhead
            simp only [hn] at hdef ⊢
            rcases hemit with hemit | hemit <;> simp [hdef, mapGet, hemit]

/-! # Claim C5 — consumable -/

theorem consumableAnyParent_iff (ps : List (CollectorEntity × List (String × Bool))) :
    consumableAnyParent ps = true ↔
      ∃ p ∈ ps, 0 < p.2.length ∧ p.1.consumable = true := by
  induction ps with
  | nil =>
    constructor
    · intro h
      exact absurd h (by rw [consumableAnyParent]; simp)
    · rintro ⟨p, hp, -⟩
      exact absurd hp (List.not_mem_nil p)
  | cons q rest ih =>
    rw [show consumableAnyParent (q :: rest) =
        ((decide (0 < q.2.length) && CollectorEntity.consumable q.1) ||
          consumableAnyParent rest) from by
      obtain ⟨qe, ql⟩ := q
      rw [consumableAnyParent]]
    simp only [Bool.or_eq_true, Bool.and_eq_true, decide_eq_true_eq]
    rw [ih]
    constructor
    · rintro (⟨hlen, hcons⟩ | ⟨p, hp, hres⟩)
      · exact ⟨q, List.mem_cons_self q rest, hlen, hcons⟩
      · exact ⟨p, List.mem_cons_of_mem q hp, hres⟩
    · rintro ⟨p, hp, hres⟩
      rcases List.mem_cons.mp hp with rfl | hp
      · exact Or.inl hres
      · exact Or.inr ⟨p, hp, hres⟩

/-- C5: `consumable` is true exactly when the entity is exported from the
entry point or some parent entity with a non-empty local export map for it is
itself consumable; the recursion is well defined because the parent graph is
a tree (the embedding carries parents structurally, so totality of
`CollectorEntity.consumable` is the termination argument). -/
theorem consumable_spec (e : CollectorEntity) :
    e.consumable = true ↔
      (e.exportedFromEntryPoint = true ∨
        ∃ p ∈ e.localExportNamesByParent, 0 < p.2.length ∧ p.1.consumable = true) := by
  obtain ⟨a, m, b, s, parents, n⟩ := e
  rw [CollectorEntity.consumable]
  simp only [CollectorEntity.localExportNamesByParent, Bool.or_eq_true]
  rw [consumableAnyParent_iff]

/-! # Unfolding lemmas for the reference-collection traversal -/

theorem collectLoop_nil (g : EntityGraph) (t : ReleaseTag) (st : CollectState) :
    collectLoop g t [] st = st := by
  rw [collectLoop]

theorem collectLoop_seen (g : EntityGraph) (t : ReleaseTag) (a : Nat) (stack : List Nat)
    (st : CollectState) (hmem : a ∈ st.alreadySeenAstEntities) :
    collectLoop g t (a :: stack) st = collectLoop g t stack st := by
  rw [collectLoop]
  simp [hmem]

theorem collectLoop_symbol (g : EntityGraph) (t : ReleaseTag) (a : Nat) (stack : List Nat)
    (st : CollectState) (hmem : a ∉ st.alreadySeenAstEntities)
    (ds : List AstDeclarationModel) (h : g.entityAt a = .astSymbol ds) :
    collectLoop g t (a :: stack) st =
      collectLoop g t ((processAstDeclarations t a ds st.referencedAstEntities []).2 ++ stack)
        ⟨st.alreadySeenAstEntities ++ [a],
         (processAstDeclarations t a ds st.referencedAstEntities []).1⟩ := by
  rw [collectLoop]
  simp only [hmem, if_false]
  split
  all_goals simp_all

theorem collectLoop_nsimport (g : EntityGraph) (t : ReleaseTag) (a : Nat)
    (stack : List Nat) (st : CollectState) (hmem : a ∉ st.alreadySeenAstEntities)
    (locs : List Nat) (h : g.entityAt a = .astNamespaceImport locs) :
    collectLoop g t (a :: stack) st =
      collectLoop g t (locs ++ stack)
        ⟨st.alreadySeenAstEntities ++ [a], addToSet st.referencedAstEntities a⟩ := by
  rw [collectLoop]
  simp only [hmem, if_false]
  split
  all_goals simp_all

theorem collectLoop_other (g : EntityGraph) (t : ReleaseTag) (a : Nat)
    (stack : List Nat) (st : CollectState) (hmem : a ∉ st.alreadySeenAstEntities)
    (h : g.entityAt a = .otherEntity) :
    collectLoop g t (a :: stack) st =
      collectLoop g t stack
        ⟨st.alreadySeenAstEntities ++ [a], addToSet st.referencedAstEntities a⟩ := by
  rw [collectLoop]
  simp only [hmem, if_false]
  split
  all_goals simp_all

theorem processAstDeclarations_filter (t : ReleaseTag) (i : Nat)
    (ds : List AstDeclarationModel) :
    ∀ (r q : List Nat),
    processAstDeclarations t i (ds.filter (fun d => !trimmedDeclaration t d)) r q =
      processAstDeclarations t i ds r q := by
  induction ds with
  | nil => intro r q; rfl
  | cons d rest ih =>
    intro r q
    by_cases hd : trimmedDeclaration t d = true
    · rw [show (d :: rest).filter (fun d => !trimmedDeclaration t d) =
          rest.filter (fun d => !trimmedDeclaration t d) from by simp [List.filter, hd]]
      rw [show processAstDeclarations t i (d :: rest) r q =
          processAstDeclarations t i rest r q from by
        simp only [processAstDeclarations]
        rw [if_pos hd]]
      exact ih r q
    · rw [show (d :: rest).filter (fun d => !trimmedDeclaration t d) =
          d :: rest.filter (fun d => !trimmedDeclaration t d) from by
        simp [List.filter, hd]]
      rw [show processAstDeclarations t i
            (d :: rest.filter (fun d => !trimmedDeclaration t d)) r q =
          processAstDeclarations t i (rest.filter (fun d => !trimmedDeclaration t d))
            (addToSet r i) (q ++ d.referencedAstEntities ++ d.children) from by
        simp only [processAstDeclarations]
        rw [if_neg hd]]
      rw [show processAstDeclarations t i (d :: rest) r q =
          processAstDeclarations t i rest (addToSet r i)
            (q ++ d.referencedAstEntities ++ d.children) from by
        simp only [processAstDeclarations]
        rw [if_neg hd]]
      exact ih (addToSet r i) (q ++ d.referencedAstEntities ++ d.children)

theorem processAstDeclarations_fst_mem (t : ReleaseTag) (i : Nat)
    (ds : List AstDeclarationModel) :
    ∀ (r q : List Nat) (x : Nat),
    x ∈ (processAstDeclarations t i ds r q).1 ↔
      x ∈ r ∨ (x = i ∧ ∃ d ∈ ds, trimmedDeclaration t d = false) := by
  induction ds with
  | nil =>
    intro r q x
    simp [processAstDeclarations]
  | cons d rest ih =>
    intro r q x
    by_cases hd : trimmedDeclaration t d = true
    · rw [show processAstDeclarations t i (d :: rest) r q =
          processAstDeclarations t i rest r q from by
        simp only [processAstDeclarations]
        rw [if_pos hd]]
      rw [ih]
      constructor
      · rintro (hr | ⟨rfl, dd, hdd, hddf⟩)
        · exact Or.inl hr
        · exact Or.inr ⟨rfl, dd, List.mem_cons_of_mem d hdd, hddf⟩
      · rintro (hr | ⟨rfl, dd, hdd, hddf⟩)
        · exact Or.inl hr
        · rcases List.mem_cons.mp hdd with rfl | hdd
          · rw [hd] at hddf
            exact Bool.noConfusion hddf
          · exact Or.inr ⟨rfl, dd, hdd, hddf⟩
    · rw [show processAstDeclarations t i (d :: rest) r q =
          processAstDeclarations t i rest (addToSet r i)
            (q ++ d.referencedAstEntities ++ d.children) from by
        simp only [processAstDeclarations]
        rw [if_neg hd]]
      rw [ih, mem_addToSet]
      rw [Bool.not_eq_true] at hd
      constructor
      · rintro ((hr | rfl) | ⟨rfl, dd, hdd, hddf⟩)
        · exact Or.inl hr
        · exact Or.inr ⟨rfl, d, List.mem_cons_self d rest, hd⟩
        · exact Or.inr ⟨rfl, dd, List.mem_cons_of_mem d hdd, hddf⟩
      · rintro (hr | ⟨rfl, dd, hdd, hddf⟩)
        · exact Or.inl (Or.inl hr)
        · exact Or.inl (Or.inr rfl)

theorem processAstDeclarations_fst_subset (t : ReleaseTag) (i : Nat)
    (ds : List AstDeclarationModel) (r q : List Nat) :
    r ⊆ (processAstDeclarations t i ds r q).1 := by
  intro x hx
  rw [processAstDeclarations_fst_mem]
  exact Or.inl hx

theorem entityAt_eraseTrimmedDeclarations (g : EntityGraph) (t : ReleaseTag) (id : Nat) :
    (eraseTrimmedDeclarations g t).entityAt id =
      match g.entityAt id with
      | .astSymbol ds => .astSymbol (ds.filter (fun d => !trimmedDeclaration t d))
      | e => e := by
  unfold eraseTrimmedDeclarations EntityGraph.entityAt
  simp only [List.getD_eq_getElem?_getD, List.getElem?_map]
  cases hx : g.entities[id]? with
  | none => rfl
  | some e => cases e <;> rfl

theorem collectLoop_eraseTrimmedDeclarations (g : EntityGraph) (t : ReleaseTag) :
    ∀ (stack : List Nat) (st : CollectState),
    collectLoop (eraseTrimmedDeclarations g t) t stack st = collectLoop g t stack st := by
  intro stack st
  induction stack, st using collectLoop.induct g t with
  | case1 st =>
    rw [collectLoop_nil, collectLoop_nil]
  | case2 a stack st hmem ih =>
    rw [collectLoop_seen _ _ _ _ _ hmem, collectLoop_seen _ _ _ _ _ hmem, ih]
  | case3 a stack st hmem seen1 ds h pr ih =>
    have herase : (eraseTrimmedDeclarations g t).entityAt a =
        .astSymbol (ds.filter (fun d => !trimmedDeclaration t d)) := by
      rw [entityAt_eraseTrimmedDeclarations, h]
    rw [collectLoop_symbol g t a stack st hmem ds h,
      collectLoop_symbol (eraseTrimmedDeclarations g t) t a stack st hmem _ herase,
      processAstDeclarations_filter]
    exact ih
  | case4 a stack st hmem seen1 locs h ih =>
    have herase : (eraseTrimmedDeclarations g t).entityAt a = .astNamespaceImport locs := by
      rw [entityAt_eraseTrimmedDeclarations, h]
    rw [collectLoop_nsimport g t a stack st hmem locs h,
      collectLoop_nsimport (eraseTrimmedDeclarations g t) t a stack st hmem locs herase]
    exact ih
  | case5 a stack st hmem seen1 h ih =>
    have herase : (eraseTrimmedDeclarations g t).entityAt a = .otherEntity := by
      rw [entityAt_eraseTrimmedDeclarations, h]
    rw [collectLoop_other g t a stack st hmem h,
      collectLoop_other (eraseTrimmedDeclarations g t) t a stack st hmem herase]
    exact ih

theorem collectLoop_refd_sound (g : EntityGraph) (t : ReleaseTag) :
    ∀ (stack : List Nat) (st : CollectState),
    (∀ x ds, g.entityAt x = .astSymbol ds → x ∈ st.referencedAstEntities →
      ∃ d ∈ ds, trimmedDeclaration t d = false) →
    ∀ x ds, g.entityAt x = .astSymbol ds →
      x ∈ (collectLoop g t stack st).referencedAstEntities →
      ∃ d ∈ ds, trimmedDeclaration t d = false := by
  intro stack st
  induction stack, st using collectLoop.induct g t with
  | case1 st =>
    intro hinv x ds hx hxm
    rw [collectLoop_nil] at hxm
    exact hinv x ds hx hxm
  | case2 a stack st hmem ih =>
    intro hinv x ds hx hxm
    rw [collectLoop_seen _ _ _ _ _ hmem] at hxm
    exact ih hinv x ds hx hxm
  | case3 a stack st hmem seen1 ds h pr ih =>
    intro hinv x ds' hx hxm
    rw [collectLoop_symbol g t a stack st hmem ds h] at hxm
    refine ih ?_ x ds' hx hxm
    intro y dsy hy hym
    rw [processAstDeclarations_fst_mem] at hym
    rcases hym with hym | ⟨rfl, dd, hdd, hddf⟩
    · exact hinv y dsy hy hym
    · rw [h] at hy
      injection hy with hy
      subst hy
      exact ⟨dd, hdd, hddf⟩
  | case4 a stack st hmem seen1 locs h ih =>
    intro hinv x ds' hx hxm
    rw [collectLoop_nsimport g t a stack st hmem locs h] at hxm
    refine ih ?_ x ds' hx hxm
    intro y dsy hy hym
    rw [mem_addToSet] at hym
    rcases hym with hym | rfl
    · exact hinv y dsy hy hym
    · rw [h] at hy
      exact AstEntityModel.noConfusion hy
  | case5 a stack st hmem seen1 h ih =>
    intro hinv x ds' hx hxm
    rw [collectLoop_other g t a stack st hmem h] at hxm
    refine ih ?_ x ds' hx hxm
    intro y dsy hy hym
    rw [mem_addToSet] at hym
    rcases hym with hym | rfl
    · exact hinv y dsy hy hym
    · rw [h] at hy
      exact AstEntityModel.noConfusion hy

theorem collectLoop_seen_complete (g : EntityGraph) (t : ReleaseTag) :
    ∀ (stack : List Nat) (st : CollectState),
    (∀ x ds, g.entityAt x = .astSymbol ds → x ∈ st.alreadySeenAstEntities →
      (∃ d ∈ ds, trimmedDeclaration t d = false) → x ∈ st.referencedAstEntities) →
    ∀ x ds, g.entityAt x = .astSymbol ds →
      x ∈ (collectLoop g t stack st).alreadySeenAstEntities →
      (∃ d ∈ ds, trimmedDeclaration t d = false) →
      x ∈ (collectLoop g t stack st).referencedAstEntities := by
  intro stack st
  induction stack, st using collectLoop.induct g t with
  | case1 st =>
    intro hinv x ds hx hxm hsurv
    rw [collectLoop_nil] at hxm ⊢
    exact hinv x ds hx hxm hsurv
  | case2 a stack st hmem ih =>
    intro hinv x ds hx hxm hsurv
    rw [collectLoop_seen _ _ _ _ _ hmem] at hxm ⊢
    exact ih hinv x ds hx hxm hsurv
  | case3 a stack st hmem seen1 ds h pr ih =>
    intro hinv x ds' hx hxm hsurv
    rw [collectLoop_symbol g t a stack st hmem ds h] at hxm ⊢
    refine ih ?_ x ds' hx hxm hsurv
    intro y dsy hy hym hysurv
    have hym2 : y ∈ st.alreadySeenAstEntities ++ [a] := hym
    simp only [List.mem_append, List.mem_singleton] at hym2
    rcases hym2 with hym2 | rfl
    · exact processAstDeclarations_fst_subset t a ds _ [] (hinv y dsy hy hym2 hysurv)
    · rw [processAstDeclarations_fst_mem]
      rw [h] at hy
      injection hy with hy
      subst hy
      exact Or.inr ⟨rfl, hysurv⟩
  | case4 a stack st hmem seen1 locs h ih =>
    intro hinv x ds' hx hxm hsurv
    rw [collectLoop_nsimport g t a stack st hmem locs h] at hxm ⊢
    refine ih ?_ x ds' hx hxm hsurv
    intro y dsy hy hym hysurv
    have hym2 : y ∈ st.alreadySeenAstEntities ++ [a] := hym
    simp only [List.mem_append, List.mem_singleton] at hym2
    rcases hym2 with hym2 | rfl
    · exact subset_addToSet _ _ (hinv y dsy hy hym2 hysurv)
    · rw [h] at hy
      exact AstEntityModel.noConfusion hy
  | case5 a stack st hmem seen1 h ih =>
    intro hinv x ds' hx hxm hsurv
    rw [collectLoop_other g t a stack st hmem h] at hxm ⊢
    refine ih ?_ x ds' hx hxm hsurv
    intro y dsy hy hym hysurv
    have hym2 : y ∈ st.alreadySeenAstEntities ++ [a] := hym
    simp only [List.mem_append, List.mem_singleton] at hym2
    rcases hym2 with hym2 | rfl
    · exact subset_addToSet _ _ (hinv y dsy hy hym2 hysurv)
    · rw [h] at hy
      exact AstEntityModel.noConfusion hy

theorem collectLoop_seen_nodup (g : EntityGraph) (t : ReleaseTag) :
    ∀ (stack : List Nat) (st : CollectState),
    st.alreadySeenAstEntities.Nodup →
    (collectLoop g t stack st).alreadySeenAstEntities.Nodup := by
  intro stack st
  induction stack, st using collectLoop.induct g t with
  | case1 st =>
    intro hnd
    rw [collectLoop_nil]
    exact hnd
  | case2 a stack st hmem ih =>
    intro hnd
    rw [collectLoop_seen _ _ _ _ _ hmem]
    exact ih hnd
  | case3 a stack st hmem seen1 ds h pr ih =>
    intro hnd
    rw [collectLoop_symbol g t a stack st hmem ds h]
    refine ih ?_
    show (st.alreadySeenAstEntities ++ [a]).Nodup
    simp [List.nodup_append, hnd, hmem]
  | case4 a stack st hmem seen1 locs h ih =>
    intro hnd
    rw [collectLoop_nsimport g t a stack st hmem locs h]
    refine ih ?_
    show (st.alreadySeenAstEntities ++ [a]).Nodup
    simp [List.nodup_append, hnd, hmem]
  | case5 a stack st hmem seen1 h ih =>
    intro hnd
    rw [collectLoop_other g t a stack st hmem h]
    refine ih ?_
    show (st.alreadySeenAstEntities ++ [a]).Nodup
    simp [List.nodup_append, hnd, hmem]

theorem trimScenario_core_eval :
    collectAllReferencedEntitiesCore trimScenarioCollector .beta [] =
      CollectState.mk [0, 1] [0, 1] := by
  have e0 : trimScenarioGraph.entityAt 0 =
      .astSymbol [⟨.beta, [1], []⟩, ⟨.internal, [2], []⟩] := rfl
  have e1 : trimScenarioGraph.entityAt 1 = .astSymbol [⟨.beta, [], []⟩] := rfl
  have p0 : processAstDeclarations .beta 0
      [⟨.beta, [1], []⟩, ⟨.internal, [2], []⟩] [] [] = ([0], [1]) := by decide
  have p1 : processAstDeclarations .beta 1 [⟨.beta, [], []⟩] [0] [] = ([0, 1], []) := by
    decide
  calc collectAllReferencedEntitiesCore trimScenarioCollector .beta []
      = collectLoop trimScenarioGraph .beta [0] ⟨[], []⟩ := rfl
    _ = collectLoop trimScenarioGraph .beta [1] ⟨[0], [0]⟩ := by
        rw [collectLoop_symbol _ _ _ _ _ (by decide) _ e0, p0]
        rfl
    _ = collectLoop trimScenarioGraph .beta [] ⟨[0, 1], [0, 1]⟩ := by
        rw [collectLoop_symbol _ _ _ _ _ (by decide) _ e1, p1]
        rfl
    _ = CollectState.mk [0, 1] [0, 1] := collectLoop_nil _ _ _

theorem cyclic_core_eval :
    collectAllReferencedEntitiesCore cyclicCollector .public [] =
      CollectState.mk [0, 1] [0, 1] := by
  have e0 : cyclicGraph.entityAt 0 = .astSymbol [⟨.public, [1], []⟩] := rfl
  have e1 : cyclicGraph.entityAt 1 = .astSymbol [⟨.public, [0], []⟩] := rfl
  have p0 : processAstDeclarations .public 0 [⟨.public, [1], []⟩] [] [] = ([0], [1]) := by
    decide
  have p1 : processAstDeclarations .public 1 [⟨.public, [0], []⟩] [0] [] = ([0, 1], [0]) := by
    decide
  calc collectAllReferencedEntitiesCore cyclicCollector .public []
      = collectLoop cyclicGraph .public [0, 1] ⟨[], []⟩ := rfl
    _ = collectLoop cyclicGraph .public [1, 1] ⟨[0], [0]⟩ := by
        rw [collectLoop_symbol _ _ _ _ _ (by decide) _ e0, p0]
        rfl
    _ = collectLoop cyclicGraph .public [0, 1] ⟨[0, 1], [0, 1]⟩ := by
        rw [collectLoop_symbol _ _ _ _ _ (by decide) _ e1, p1]
        rfl
    _ = collectLoop cyclicGraph .public [1] ⟨[0, 1], [0, 1]⟩ :=
        collectLoop_seen _ _ _ _ _ (by decide)
    _ = collectLoop cyclicGraph .public [] ⟨[0, 1], [0, 1]⟩ :=
        collectLoop_seen _ _ _ _ _ (by decide)
    _ = CollectState.mk [0, 1] [0, 1] := collectLoop_nil _ _ _

/-! # Claim C1 — release-tag trimming of declarations -/

/-- C1: with a single target release tag, a declaration whose effective tag is
not None and compares strictly below the target contributes nothing — deleting
every such declaration up front yields the identical traversal result — while
surviving declarations are traversed normally; and a traversed `AstSymbol` is
in the referenced set exactly when at least one of its declarations survives
trimming. -/
theorem collectAllReferencedEntities_trimming (c : CollectorModel) (t : ReleaseTag)
    (trims : List String) :
    (collectAllReferencedEntities c t trims =
      collectAllReferencedEntities
        (CollectorModel.mk c.entities (eraseTrimmedDeclarations c.graph t)) t trims) ∧
    ∀ id ds, c.graph.entityAt id = .astSymbol ds →
      id ∈ (collectAllReferencedEntitiesCore c t trims).alreadySeenAstEntities →
      (id ∈ (collectAllReferencedEntitiesCore c t trims).referencedAstEntities ↔
        ∃ d ∈ ds, trimmedDeclaration t d = false) := by
  constructor
  · unfold collectAllReferencedEntities collectAllReferencedEntitiesCore
    rw [show (CollectorModel.mk c.entities (eraseTrimmedDeclarations c.graph t)).graph =
        eraseTrimmedDeclarations c.graph t from rfl]
    rw [collectLoop_eraseTrimmedDeclarations]
    rfl
  · intro id ds hid hseen
    constructor
    · intro hrefd
      refine collectLoop_refd_sound c.graph t _ _ ?_ id ds hid hrefd
      intro x dsx hx hxm
      exact absurd hxm (List.not_mem_nil x)
    · intro hsurv
      refine collectLoop_seen_complete c.graph t _ _ ?_ id ds hid hseen hsurv
      intro x dsx hx hxm hxs
      exact absurd hxm (List.not_mem_nil x)

/-- Witness for C1: in the spec's Beta/Internal merged-declaration scenario,
trimmed at threshold Beta, symbol 0 is reached and the theorem's equivalence
instantiates there (and indeed holds: the Beta declaration survives). -/
theorem collectAllReferencedEntities_trimming_witness :
    0 ∈ (collectAllReferencedEntitiesCore trimScenarioCollector
        .beta []).alreadySeenAstEntities ∧
    (0 ∈ (collectAllReferencedEntitiesCore trimScenarioCollector
        .beta []).referencedAstEntities ↔
      ∃ d ∈ [AstDeclarationModel.mk .beta [1] [], AstDeclarationModel.mk .internal [2] []],
        trimmedDeclaration .beta d = false) := by
  have hseen : 0 ∈ (collectAllReferencedEntitiesCore trimScenarioCollector
      .beta []).alreadySeenAstEntities := by
    rw [trimScenario_core_eval]
    decide
  exact ⟨hseen, (collectAllReferencedEntities_trimming trimScenarioCollector .beta []).2 0
    [AstDeclarationModel.mk .beta [1] [], AstDeclarationModel.mk .internal [2] []]
    rfl hseen⟩

/-! # Claim C2 — termination of the closure on cyclic graphs -/

/-- C2: the traversal is a total function (its Lean embedding carries a
termination proof) whose visited set never holds duplicates — re-visits return
immediately — and on the concrete two-cycle graph (X references Y, Y
references X) it terminates with exactly the two mutually referencing
entities in the result. -/
theorem collectReferences_cyclic_termination :
    (∀ (c : CollectorModel) (t : ReleaseTag) (trims : List String),
      (collectAllReferencedEntitiesCore c t trims).alreadySeenAstEntities.Nodup) ∧
    collectAllReferencedEntities cyclicCollector .public [] = [0, 1] ∧
    (collectAllReferencedEntitiesCore cyclicCollector
      .public []).alreadySeenAstEntities = [0, 1] ∧
    cyclicGraph.entityAt 0 = .astSymbol [AstDeclarationModel.mk .public [1] []] ∧
    cyclicGraph.entityAt 1 = .astSymbol [AstDeclarationModel.mk .public [0] []] := by
  refine ⟨?_, ?_, ?_, rfl, rfl⟩
  · intro c t trims
    unfold collectAllReferencedEntitiesCore
    exact collectLoop_seen_nodup _ _ _ _ List.nodup_nil
  · unfold collectAllReferencedEntities
    rw [cyclic_core_eval]
    decide
  · rw [cyclic_core_eval]
